import Mathlib

/-!
# Verification of `pipe.c` — a circular-buffer FIFO byte queue

Shallow embedding of the queue core of `src/pipe.c` (struct pipe, resize
policy, push/pop protocol, handle refcounts) and proofs about the claims of
the specification.

Modelling conventions:
* `size_t` values are `Nat`; overflow is modelled explicitly where the C code
  depends on it (`next_pow2` checks its argument against `2^63`, and the
  unbounded `max_cap` is `~(size_t)0 = 2^64 - 1`).
* The storage buffer is a `List Nat` of bytes, `Option`al because the C code
  frees it (sets it to `NULL`) when the last consumer drops.  `malloc`ed,
  uninitialised memory is modelled as zero bytes (no theorem depends on the
  garbage values).
* The `begin`/`end` cursors are byte offsets into the buffer; `bufend` is the
  derived offset `elem_size * capacity` (the C code keeps this shortcut
  pointer in sync via `fix_bufend`, and asserts exactly this equation in
  `check_invariants`).
* Blocking: the claims are about single-threaded sequential sessions, where a
  `pthread_cond_wait` never returns.  A public operation therefore returns
  `Option`: `none` means the call does not return normally (it suspends
  forever, or dies on the in-code `assert(elems_pushed > 0)`).
* `pipe_push`'s chunk loop recurses on `count - elems_pushed`; the Lean
  definition carries an explicit structural bound (`fuel`), initialised to
  `count`, which can never be exhausted because every chunk moves at least
  one element (`pipe_pushAux_fuel_irrel` shows the bound is irrelevant, and
  the C9 theorem bounds the number of chunks by `count`).
-/

/-- `DEFAULT_MINCAP` from pipe.c (release build: 32; debug builds use 2). -/
def DEFAULT_MINCAP : Nat := 32

/-- `~(size_t)0`, the all-ones 64-bit value used for an unbounded `max_cap`. -/
def SIZE_MAX : Nat := 2 ^ 64 - 1

/-- Read `n` bytes starting at byte offset `off` (models `memcpy` out of the
buffer). -/
def readBytes (buf : List Nat) (off n : Nat) : List Nat :=
  (buf.drop off).take n

/-- Overwrite the bytes of `buf` at offset `off` with `src` (models `memcpy`
into the buffer).  All uses stay in bounds: `off + src.length ≤ buf.length`. -/
def writeBytes (buf : List Nat) (off : Nat) (src : List Nat) : List Nat :=
  buf.take off ++ src ++ buf.drop (off + src.length)

/-- `wrap_if_at_end` from pipe.c: a cursor that has reached the one-past-end
offset `bufend` is normalised back to the start of the buffer (offset 0). -/
def wrap_if_at_end (ptr bufend : Nat) : Nat :=
  if ptr = bufend then 0 else ptr

/-- One `a |= a >> k` step of the round-up-to-power-of-two bit cascade. -/
def orshift (a k : Nat) : Nat := a ||| a >>> k

/-- The six or-shift steps applied to `n-1` inside `next_pow2` (shifts
1, 2, 4, 8, 16, 32 — `sizeof(size_t)*CHAR_BIT = 64`). -/
def cascade (m : Nat) : Nat :=
  orshift (orshift (orshift (orshift (orshift (orshift m 1) 2) 4) 8) 16) 32

/-- `next_pow2` from pipe.c.  `top = 2^63` is the highest `size_t` power of
two; arguments at or above it are returned unchanged to avoid overflow.
Otherwise the classic decrement / or-cascade / increment rounds up to the
next power of two. -/
def next_pow2 (n : Nat) : Nat :=
  if n ≥ (SIZE_MAX >>> 1) + 1 then n
  else cascade (n - 1) + 1

/-- The state of a `struct pipe`.  `bufend` is not a field: it is the derived
offset `elem_size * capacity` (see `fix_bufend` / `check_invariants` in the
source).  `end` is a Lean keyword, hence `end_`. -/
structure Pipe where
  elem_size : Nat
  elem_count : Nat
  capacity : Nat
  min_cap : Nat
  max_cap : Nat
  buffer : Option (List Nat)
  begin : Nat
  end_ : Nat
  producer_refcount : Nat
  consumer_refcount : Nat
deriving DecidableEq, Repr

/-- `wraps_around` from pipe.c: the in-use region straddles the physical end
of the buffer iff `begin > end`. -/
def wraps_around (p : Pipe) : Bool :=
  decide (p.begin > p.end_)

/-- `check_invariants` from pipe.c, as a boolean: the exact conjunction of
its `assert`s (with pointers replaced by byte offsets; `bufend == buffer +
elem_size*capacity` becomes the buffer-length equation).  When the buffer is
`NULL` the C function only asserts `consumer_refcount == 0` and returns. -/
def check_invariants (p : Pipe) : Bool :=
  match p.buffer with
  | none => p.consumer_refcount == 0
  | some buf =>
    let bufend := p.elem_size * p.capacity
    (p.elem_size != 0) &&
    (p.elem_count ≤ p.capacity) &&
    (buf.length == bufend) &&
    (p.begin ≤ bufend) &&
    (p.end_ ≤ bufend) &&
    (DEFAULT_MINCAP ≤ p.min_cap) &&
    (p.min_cap ≤ p.max_cap) &&
    (p.min_cap ≤ p.capacity) &&
    (p.capacity ≤ p.max_cap) &&
    (p.begin != bufend) &&
    (if p.begin > p.end_
     then p.elem_size * p.elem_count == p.end_ + (bufend - p.begin)
     else p.elem_size * p.elem_count == p.end_ - p.begin)

/-- `pipe_new` from pipe.c (the successful-malloc path): capacity and
`min_cap` start at `DEFAULT_MINCAP`; a nonzero `limit` is rounded up to
`next_pow2(max(limit, min_cap))`, zero means unbounded (`~(size_t)0`); both
refcounts start at 1 (the root handle counts as one producer and one
consumer). -/
def pipe_new (elem_size limit : Nat) : Pipe :=
  let min_cap := DEFAULT_MINCAP
  let capacity := DEFAULT_MINCAP
  let max_cap := if limit ≠ 0 then next_pow2 (max limit min_cap) else SIZE_MAX
  { elem_size := elem_size
    elem_count := 0
    capacity := capacity
    min_cap := min_cap
    max_cap := max_cap
    buffer := some (List.replicate (elem_size * capacity) 0)
    begin := 0
    end_ := 0
    producer_refcount := 1
    consumer_refcount := 1 }

/-- `pipe_producer_new` from pipe.c: increment `producer_refcount` under the
lock and hand the same pipe back as the new handle. -/
def pipe_producer_new (p : Pipe) : Pipe :=
  { p with producer_refcount := p.producer_refcount + 1 }

/-- `pipe_consumer_new` from pipe.c: increment `consumer_refcount` under the
lock and hand the same pipe back as the new handle. -/
def pipe_consumer_new (p : Pipe) : Pipe :=
  { p with consumer_refcount := p.consumer_refcount + 1 }

/-- `pipe_producer_free` from pipe.c: decrement `producer_refcount` (the
deallocation of the mutex/struct when both counts hit zero is not observable
in the state model). -/
def pipe_producer_free (p : Pipe) : Pipe :=
  { p with producer_refcount := p.producer_refcount - 1 }

/-- `pipe_consumer_free` from pipe.c: decrement `consumer_refcount`; when it
reaches zero the storage buffer is freed (`free_and_null`). -/
def pipe_consumer_free (p : Pipe) : Pipe :=
  let q := { p with consumer_refcount := p.consumer_refcount - 1 }
  if q.consumer_refcount = 0 then { q with buffer := none } else q

/-- `copy_pipe_into_new_buf` from pipe.c: linearise the current contents into
the front of `newbuf` (two runs if wrapped, one otherwise), returning the new
buffer together with the number of bytes copied (the returned `end`
pointer). `buf` is the current storage of `p`. -/
def copy_pipe_into_new_buf (p : Pipe) (buf newbuf : List Nat) :
    List Nat × Nat :=
  let bufend := p.elem_size * p.capacity
  if wraps_around p then
    let nb := writeBytes newbuf 0 (readBytes buf p.begin (bufend - p.begin))
    let nb2 := writeBytes nb (bufend - p.begin) (readBytes buf 0 p.end_)
    (nb2, (bufend - p.begin) + p.end_)
  else
    (writeBytes newbuf 0 (readBytes buf p.begin (p.end_ - p.begin)),
     p.end_ - p.begin)

/-- `resize_buffer` from pipe.c: clamp the requested size to `max_cap`,
refuse to resize below the current element count or below `min_cap`,
otherwise allocate a fresh buffer, linearise the contents into it
(`begin = 0`, `end = bytes copied`) and install the new capacity.
With a `NULL` buffer the C code would `memcpy` from a null pointer; no
operation modelled by a claim reaches that (pushes bail out first and pops
require a live consumer), so the state is returned unchanged. -/
def resize_buffer (p : Pipe) (new_size0 : Nat) : Pipe :=
  let new_size := if new_size0 ≥ p.max_cap then p.max_cap else new_size0
  if new_size ≤ p.elem_count ∨ new_size < p.min_cap then p
  else
    match p.buffer with
    | none => p
    | some buf =>
      let new_size_in_bytes := new_size * p.elem_size
      let r := copy_pipe_into_new_buf p buf (List.replicate new_size_in_bytes 0)
      { p with buffer := some r.1
               begin := 0
               end_ := r.2
               capacity := new_size }

/-- `push_without_locking` from pipe.c: grow if the push would overflow the
current capacity, then copy the new elements in at `end` in at most two
contiguous runs (tail of the buffer first, then from offset 0), normalising
the `end` cursor with `wrap_if_at_end` after each run, and finally bump
`elem_count`.  `elems` is the byte image of the `count` elements. -/
def push_without_locking (p0 : Pipe) (elems0 : List Nat) (count : Nat) :
    Pipe :=
  let p := if p0.elem_count + count > p0.capacity
           then resize_buffer p0 (next_pow2 (p0.elem_count + count))
           else p0
  match p.buffer with
  | none => p
  | some buffer =>
    let bytes_to_copy := count * p.elem_size
    let bufend := p.elem_size * p.capacity
    let st : List Nat × List Nat × Nat × Nat :=
      if ¬ wraps_around p then
        let at_end := min bytes_to_copy (bufend - p.end_)
        (writeBytes buffer p.end_ (elems0.take at_end),
         elems0.drop at_end,
         bytes_to_copy - at_end,
         wrap_if_at_end (p.end_ + at_end) bufend)
      else
        (buffer, elems0, bytes_to_copy, p.end_)
    let buffer2 := writeBytes st.1 st.2.2.2 (st.2.1.take st.2.2.1)
    let end2 := wrap_if_at_end (st.2.2.2 + st.2.2.1) bufend
    { p with buffer := some buffer2
             end_ := end2
             elem_count := p.elem_count + count }

/-- The shrink policy at the end of `pop_without_locking` in pipe.c: if
memory-usage efficiency dropped to 25% or below, resize down to half the
capacity (one halving per pop; `resize_buffer` still refuses to go below
`min_cap` or below the current contents). -/
def shrink_after_pop (p : Pipe) : Pipe :=
  if p.elem_count ≤ p.capacity / 4
  then resize_buffer p (p.capacity / 2)
  else p

/-- `pop_without_locking` from pipe.c: copy out `min(count, elem_count)`
elements starting at `begin` (two runs if the data wraps), advance and
normalise `begin`, decrement `elem_count`, and finally apply the shrink
policy (at most one halving: if usage dropped to a quarter, resize to half).
Returns `(elems_to_copy, bytes copied to target, new state)`. -/
def pop_without_locking (p : Pipe) (count : Nat) : Nat × List Nat × Pipe :=
  match p.buffer with
  | none => (0, [], p)
  | some buffer =>
    let elems_to_copy := min count p.elem_count
    let bytes_remaining := elems_to_copy * p.elem_size
    let elem_count2 := p.elem_count - elems_to_copy
    let bufend := p.elem_size * p.capacity
    let first_bytes_to_copy := min bytes_remaining (bufend - p.begin)
    let out1 := readBytes buffer p.begin first_bytes_to_copy
    let bytes2 := bytes_remaining - first_bytes_to_copy
    let begin2 := wrap_if_at_end (p.begin + first_bytes_to_copy) bufend
    let ob : List Nat × Nat :=
      if bytes2 > 0 then
        (out1 ++ readBytes buffer 0 bytes2,
         wrap_if_at_end (begin2 + bytes2) bufend)
      else (out1, begin2)
    let p2 := { p with elem_count := elem_count2, begin := ob.2 }
    (elems_to_copy, ob.1, shrink_after_pop p2)

/-- The chunk loop of `pipe_push` from pipe.c, sequential semantics.  Per
iteration: a zero `count` returns; a full queue with live consumers waits on
`just_popped` (single-threaded: never returns, i.e. `none`); with no
consumers the push is silently dropped; otherwise `min(count, max_cap -
elem_count)` elements are pushed in one transaction and the loop retries on
the remaining suffix.  The C source `assert(elems_pushed > 0)` dies if a
transaction would move nothing (also `none` here; unreachable from sane
states).  The second component counts the transfer transactions.  `fuel`
makes the recursion structural; `pipe_push` passes `count`, which suffices
because every transaction moves at least one element. -/
def pipe_pushAux (fuel : Nat) (p : Pipe) (elems : List Nat) (count : Nat) :
    Option Pipe × Nat :=
  match fuel with
  | 0 => if count = 0 then (some p, 0) else (none, 0)
  | fuel + 1 =>
    if count = 0 then (some p, 0)
    else if p.elem_count = p.max_cap ∧ 0 < p.consumer_refcount then (none, 0)
    else if p.consumer_refcount = 0 then (some p, 0)
    else
      let elems_pushed := min count (p.max_cap - p.elem_count)
      if elems_pushed = 0 then (none, 0)
      else
        let p2 := push_without_locking p
                    (elems.take (elems_pushed * p.elem_size)) elems_pushed
        let rest := pipe_pushAux fuel p2
                      (elems.drop (elems_pushed * p.elem_size))
                      (count - elems_pushed)
        (rest.1, rest.2 + 1)

/-- `pipe_push` from pipe.c (sequential semantics): run the chunk loop.
`none` means the call never returns (blocked forever on a full queue, since
no other thread can pop). -/
def pipe_push (p : Pipe) (elems : List Nat) (count : Nat) : Option Pipe :=
  (pipe_pushAux count p elems count).1

/-- The number of transfer transactions `pipe_push` performs. -/
def pipe_push_chunks (p : Pipe) (elems : List Nat) (count : Nat) : Nat :=
  (pipe_pushAux count p elems count).2

/-- `pipe_pop` from pipe.c (sequential semantics): clamp the request to
`max_cap`, wait until the queue holds `count` elements or no producer
remains (single-threaded: if it must wait it never returns, i.e. `none`),
then pop `min(count, elem_count)` elements (zero if the queue is empty).
Returns `(return value, bytes copied to target, new state)`. -/
def pipe_pop (p : Pipe) (count0 : Nat) : Option (Nat × List Nat × Pipe) :=
  let count := if count0 > p.max_cap then p.max_cap else count0
  if p.elem_count < count ∧ 0 < p.producer_refcount then none
  else if 0 < p.elem_count then some (pop_without_locking p count)
  else some (0, [], p)

/-- `pipe_reserve` from pipe.c: a zero request means `DEFAULT_MINCAP`; a
request not exceeding the current element count is ignored; otherwise
`min_cap` is set to `min(count, max_cap)` and the buffer is eagerly
resized. -/
def pipe_reserve (p : Pipe) (count0 : Nat) : Pipe :=
  let count := if count0 = 0 then DEFAULT_MINCAP else count0
  if count ≤ p.elem_count then p
  else resize_buffer { p with min_cap := min count p.max_cap } count

/-- Pop a single element and keep the state (used to express draining a
queue one element at a time).  On a state with at least one buffered element
`pipe_pop _ 1` always returns. -/
def popOne (p : Pipe) : Pipe :=
  match pipe_pop p 1 with
  | some (_, _, p') => p'
  | none => p

/-- A sequential session step: one public queue operation of a
single-producer single-consumer session on the root handle. -/
inductive Op where
  | push : List Nat → Nat → Op
  | pop : Nat → Op
  | reserve : Nat → Op
deriving DecidableEq, Repr

/-- Run one operation; `pop` emits the bytes it copied out. -/
def runOp (p : Pipe) : Op → Option (Pipe × List Nat)
  | .push elems count => (pipe_push p elems count).map (fun p' => (p', []))
  | .pop count => (pipe_pop p count).map (fun r => (r.2.2, r.2.1))
  | .reserve count => some (pipe_reserve p count, [])

/-- Run a session: thread the state through the operations, concatenating
everything the pops copied out.  `none` if any operation blocks forever. -/
def runTrace (p : Pipe) : List Op → Option (Pipe × List Nat)
  | [] => some (p, [])
  | op :: ops =>
    match runOp p op with
    | none => none
    | some (p', out) =>
      (runTrace p' ops).map (fun r => (r.1, out ++ r.2))

/-- The bytes supplied to the pushes of a session (for element size `esz`),
in order. -/
def pushedBytes (esz : Nat) : List Op → List Nat
  | [] => []
  | .push elems count :: ops => elems.take (count * esz) ++ pushedBytes esz ops
  | _ :: ops => pushedBytes esz ops

/-- `n` is a power of two. -/
def IsPow2 (n : Nat) : Prop := ∃ k, n = 2 ^ k

/-- The structural well-formedness the claims need (a consequence of the
data-model invariants): the buffer is live, `min_cap ≤ capacity ≤ max_cap`,
`elem_count ≤ capacity`, and `min_cap` is positive. -/
def Caps (p : Pipe) : Prop :=
  p.buffer.isSome ∧ p.min_cap ≤ p.capacity ∧ p.capacity ≤ p.max_cap ∧
    p.elem_count ≤ p.capacity ∧ 0 < p.min_cap

/-- Power-of-two state: the capacity is a power of two, and `max_cap` is
either a power of two (bounded queue) or the unbounded sentinel. -/
def Pow2State (p : Pipe) : Prop :=
  IsPow2 p.capacity ∧ (IsPow2 p.max_cap ∨ p.max_cap = SIZE_MAX)

/-- The per-operation size bound: a push keeps the total element count
within `2^63` (the range where `next_pow2` is exact).  Any physically
realisable session satisfies this. -/
def pushOK (p : Pipe) : Op → Prop
  | .push _ count => p.elem_count + count ≤ 2 ^ 63
  | .pop _ => True
  | .reserve _ => True

instance instDecidablePushOK : ∀ (p : Pipe) (op : Op), Decidable (pushOK p op)
  | _, .push _ _ => Nat.decLe _ _
  | _, .pop _ => isTrue trivial
  | _, .reserve _ => isTrue trivial

/-- Size discipline of a session: `pushOK` holds at every step. -/
def TraceOK (p : Pipe) : List Op → Prop
  | [] => True
  | op :: ops =>
    pushOK p op ∧
    (match runOp p op with
     | none => True
     | some (p', _) => TraceOK p' ops)

instance instDecidableTraceOK : ∀ (p : Pipe) (ops : List Op), Decidable (TraceOK p ops)
  | _, [] => isTrue trivial
  | p, op :: ops => by
    unfold TraceOK
    have h : ∀ q : Pipe, Decidable (TraceOK q ops) := fun q =>
      instDecidableTraceOK q ops
    cases runOp p op with
    | none => exact instDecidableAnd
    | some r => exact @instDecidableAnd _ _ _ (h r.1)

/-- No `reserve` operation in the session. -/
def noReserve : List Op → Prop
  | [] => True
  | .reserve _ :: _ => False
  | _ :: ops => noReserve ops

instance instDecidableNoReserve : ∀ ops, Decidable (noReserve ops)
  | [] => isTrue trivial
  | .push _ _ :: ops => instDecidableNoReserve ops
  | .pop _ :: ops => instDecidableNoReserve ops
  | .reserve _ :: _ => isFalse id

/-! ## Theory of `next_pow2` -/

lemma size_max_top : (SIZE_MAX >>> 1) + 1 = 2 ^ 63 := by decide

/-- One or-shift step doubles the window of bits that are smeared down:
if bit `i` of `a` sees every bit of `m` in `[i, i+K)`, then bit `i` of
`a ||| a >>> K` sees every bit of `m` in `[i, i+2K)`. -/
lemma orshift_window (m a K : Nat)
    (h : ∀ i, a.testBit i = true ↔ ∃ d, d < K ∧ m.testBit (i + d) = true)
    (i : Nat) :
    (orshift a K).testBit i = true ↔
      ∃ d, d < K + K ∧ m.testBit (i + d) = true := by
  unfold orshift
  rw [Nat.testBit_or, Bool.or_eq_true, Nat.testBit_shiftRight, h, h]
  constructor
  · rintro (⟨d, hd, hb⟩ | ⟨d, hd, hb⟩)
    · exact ⟨d, by omega, hb⟩
    · refine ⟨K + d, by omega, ?_⟩
      have he : i + (K + d) = K + i + d := by omega
      rw [he]; exact hb
  · rintro ⟨d, hd, hb⟩
    by_cases hdK : d < K
    · exact Or.inl ⟨d, hdK, hb⟩
    · refine Or.inr ⟨d - K, by omega, ?_⟩
      have he : K + i + (d - K) = i + d := by omega
      rw [he]; exact hb

/-- After the six or-shift steps, bit `i` of the cascade is set iff some bit
of `m` in `[i, i+64)` is set. -/
lemma cascade_testBit (m i : Nat) :
    (cascade m).testBit i = true ↔ ∃ d, d < 64 ∧ m.testBit (i + d) = true := by
  have h1 : ∀ i, m.testBit i = true ↔ ∃ d, d < 1 ∧ m.testBit (i + d) = true := by
    intro j
    constructor
    · intro h; exact ⟨0, by omega, by simpa using h⟩
    · rintro ⟨d, hd, hb⟩
      have hd0 : d = 0 := by omega
      subst hd0; simpa using hb
  have h2 : ∀ i, (orshift m 1).testBit i = true ↔
      ∃ d, d < 2 ∧ m.testBit (i + d) = true := orshift_window m m 1 h1
  have h4 : ∀ i, (orshift (orshift m 1) 2).testBit i = true ↔
      ∃ d, d < 4 ∧ m.testBit (i + d) = true := orshift_window m _ 2 h2
  have h8 : ∀ i, (orshift (orshift (orshift m 1) 2) 4).testBit i = true ↔
      ∃ d, d < 8 ∧ m.testBit (i + d) = true := orshift_window m _ 4 h4
  have h16 : ∀ i,
      (orshift (orshift (orshift (orshift m 1) 2) 4) 8).testBit i = true ↔
      ∃ d, d < 16 ∧ m.testBit (i + d) = true := orshift_window m _ 8 h8
  have h32 : ∀ i,
      (orshift (orshift (orshift (orshift (orshift m 1) 2) 4) 8) 16).testBit i
        = true ↔
      ∃ d, d < 32 ∧ m.testBit (i + d) = true := orshift_window m _ 16 h16
  have h64 : ∀ i,
      (orshift (orshift (orshift (orshift (orshift (orshift m 1) 2) 4) 8) 16)
        32).testBit i = true ↔
      ∃ d, d < 64 ∧ m.testBit (i + d) = true := orshift_window m _ 32 h32
  exact h64 i

/-- The top bit of a nonzero number is set. -/
lemma testBit_size_sub_one (m : Nat) (hm : m ≠ 0) :
    m.testBit (m.size - 1) = true := by
  have hpos : 0 < m.size := Nat.size_pos.mpr (Nat.pos_of_ne_zero hm)
  have h1 : 2 ^ (m.size - 1) ≤ m := Nat.lt_size.mp (by omega)
  have h2 : m < 2 ^ (m.size - 1 + 1) := by
    have hs : m.size - 1 + 1 = m.size := by omega
    rw [hs]; exact Nat.lt_size_self m
  rw [Nat.testBit_to_div_mod]
  have hdiv : m / 2 ^ (m.size - 1) = 1 := by
    apply Nat.div_eq_of_lt_le
    · simpa using h1
    · have he : (1 + 1) * 2 ^ (m.size - 1) = 2 ^ (m.size - 1 + 1) := by ring
      omega
  simp [hdiv]

/-- The or-cascade of a 64-bit value fills every bit below its size. -/
lemma cascade_eq (m : Nat) (hm : m < 2 ^ 64) : cascade m = 2 ^ m.size - 1 := by
  apply Nat.eq_of_testBit_eq
  intro i
  rw [Nat.testBit_two_pow_sub_one]
  by_cases hi : i < m.size
  · simp only [hi, decide_True]
    rw [cascade_testBit]
    have hm0 : m ≠ 0 := by
      intro h0
      subst h0
      rw [Nat.size_eq_zero.mpr rfl] at hi
      omega
    have hpos : 0 < m.size := Nat.size_pos.mpr (Nat.pos_of_ne_zero hm0)
    have hs64 : m.size ≤ 64 := Nat.size_le.mpr hm
    refine ⟨m.size - 1 - i, by omega, ?_⟩
    have he : i + (m.size - 1 - i) = m.size - 1 := by omega
    rw [he]
    exact testBit_size_sub_one m hm0
  · simp only [hi, decide_False]
    rcases h : (cascade m).testBit i with _ | _
    · rfl
    · exfalso
      obtain ⟨d, _, hb⟩ := (cascade_testBit m i).mp h
      have hge : 2 ^ (i + d) ≤ m := Nat.testBit_implies_ge hb
      have : i + d < m.size := Nat.lt_size.mpr hge
      omega

/-- Below `2^63`, `next_pow2` computes `2 ^ size (n-1)`. -/
lemma next_pow2_eq (n : Nat) (h : n < 2 ^ 63) :
    next_pow2 n = 2 ^ (n - 1).size := by
  have hm : n - 1 < 2 ^ 64 := by
    have h2 : (2 : Nat) ^ 63 < 2 ^ 64 := by norm_num
    omega
  rw [next_pow2, size_max_top, if_neg (by omega)]
  rw [cascade_eq _ hm]
  have h1 : 1 ≤ 2 ^ (n - 1).size := Nat.two_pow_pos _
  omega

/-- `next_pow2` never rounds down. -/
lemma next_pow2_ge (n : Nat) : n ≤ next_pow2 n := by
  by_cases h : n < 2 ^ 63
  · rw [next_pow2_eq n h]
    have := Nat.lt_size_self (n - 1)
    omega
  · rw [next_pow2, size_max_top, if_pos (by omega)]

/-- Up to `2^63`, `next_pow2` returns a power of two. -/
lemma next_pow2_pow2 (n : Nat) (h : n ≤ 2 ^ 63) : IsPow2 (next_pow2 n) := by
  rcases Nat.lt_or_ge n (2 ^ 63) with h1 | h1
  · rw [next_pow2_eq n h1]; exact ⟨_, rfl⟩
  · have hn : n = 2 ^ 63 := by omega
    subst hn
    rw [next_pow2, size_max_top, if_pos (by omega)]
    exact ⟨63, rfl⟩

/-- `next_pow2` is the least power of two at least `n`. -/
lemma next_pow2_le_pow2 (n k : Nat) (h : n ≤ 2 ^ k) : next_pow2 n ≤ 2 ^ k := by
  by_cases h1 : n < 2 ^ 63
  · rw [next_pow2_eq n h1]
    refine Nat.pow_le_pow_right (by omega) (Nat.size_le.mpr ?_)
    have h2 : 1 ≤ 2 ^ k := Nat.two_pow_pos k
    omega
  · rw [next_pow2, size_max_top, if_pos (by omega)]; exact h

/-- `next_pow2 n < 2n` for positive `n` (so growth is at most a doubling). -/
lemma next_pow2_le_two_mul (n : Nat) (h : 1 ≤ n) : next_pow2 n ≤ 2 * n := by
  by_cases h1 : n < 2 ^ 63
  · rw [next_pow2_eq n h1]
    rcases Nat.eq_or_lt_of_le h with h2 | h2
    · rw [← h2]
      have hz : (0 : Nat).size = 0 := Nat.size_eq_zero.mpr rfl
      simp [hz]
    · have hm : 0 < n - 1 := by omega
      have hs : 0 < (n - 1).size := Nat.size_pos.mpr hm
      have h3 : 2 ^ ((n - 1).size - 1) ≤ n - 1 := Nat.lt_size.mp (by omega)
      have h4 : 2 ^ (n - 1).size = 2 * 2 ^ ((n - 1).size - 1) := by
        conv_lhs => rw [show (n - 1).size = ((n - 1).size - 1) + 1 by omega]
        ring
      omega
  · rw [next_pow2, size_max_top, if_pos (by omega)]; omega

/-! ## Field characterisations of the state-transforming operations -/

lemma resize_buffer_frame (p : Pipe) (n : Nat) :
    (resize_buffer p n).elem_size = p.elem_size ∧
    (resize_buffer p n).elem_count = p.elem_count ∧
    (resize_buffer p n).min_cap = p.min_cap ∧
    (resize_buffer p n).max_cap = p.max_cap ∧
    (resize_buffer p n).producer_refcount = p.producer_refcount ∧
    (resize_buffer p n).consumer_refcount = p.consumer_refcount ∧
    (resize_buffer p n).buffer.isSome = p.buffer.isSome := by
  unfold resize_buffer
  dsimp only []
  cases hb : p.buffer <;> split <;> split <;> (try split) <;> simp_all

/-- The exact capacity after `resize_buffer`: the request is clamped to
`max_cap`; the resize is refused if the clamped size would not fit the
current elements or would undershoot `min_cap`. -/
lemma resize_buffer_capacity (p : Pipe) (n : Nat) (hb : p.buffer.isSome) :
    (resize_buffer p n).capacity =
      if min n p.max_cap ≤ p.elem_count ∨ min n p.max_cap < p.min_cap
      then p.capacity
      else min n p.max_cap := by
  obtain ⟨buf, hbuf⟩ := Option.isSome_iff_exists.mp hb
  have hclamp : (if n ≥ p.max_cap then p.max_cap else n) = min n p.max_cap := by
    rw [Nat.min_def]; split <;> split <;> omega
  simp only [resize_buffer, hclamp, hbuf]
  split
  · rfl
  · rfl

/-- Effect of a push transaction on every field except the buffer contents
and the `end` cursor: the element count grows by exactly `count`, the
capacity grows according to the policy, everything else is untouched. -/
lemma push_without_locking_spec (p : Pipe) (elems : List Nat) (count : Nat)
    (hb : p.buffer.isSome) :
    (push_without_locking p elems count).elem_size = p.elem_size ∧
    (push_without_locking p elems count).min_cap = p.min_cap ∧
    (push_without_locking p elems count).max_cap = p.max_cap ∧
    (push_without_locking p elems count).producer_refcount
      = p.producer_refcount ∧
    (push_without_locking p elems count).consumer_refcount
      = p.consumer_refcount ∧
    (push_without_locking p elems count).elem_count = p.elem_count + count ∧
    (push_without_locking p elems count).buffer.isSome = true ∧
    (push_without_locking p elems count).capacity =
      (if p.elem_count + count > p.capacity
       then (resize_buffer p (next_pow2 (p.elem_count + count))).capacity
       else p.capacity) := by
  obtain ⟨hs1, hs2, hs3, hs4, hs5, hs6, hs7⟩ :=
    resize_buffer_frame p (next_pow2 (p.elem_count + count))
  by_cases hg : p.elem_count + count > p.capacity
  · obtain ⟨buf, hbuf⟩ := Option.isSome_iff_exists.mp (hs7.trans hb)
    simp only [push_without_locking, if_pos hg, hbuf]
    simp [hs1, hs2, hs3, hs4, hs5, hs6]
  · obtain ⟨buf, hbuf⟩ := Option.isSome_iff_exists.mp hb
    simp only [push_without_locking, if_neg hg, hbuf]
    simp

/-- Effect of the shrink policy on every field except the buffer contents
and cursors, with the exact resulting capacity. -/
lemma shrink_after_pop_spec (p : Pipe) (hb : p.buffer.isSome) :
    (shrink_after_pop p).elem_size = p.elem_size ∧
    (shrink_after_pop p).min_cap = p.min_cap ∧
    (shrink_after_pop p).max_cap = p.max_cap ∧
    (shrink_after_pop p).producer_refcount = p.producer_refcount ∧
    (shrink_after_pop p).consumer_refcount = p.consumer_refcount ∧
    (shrink_after_pop p).elem_count = p.elem_count ∧
    (shrink_after_pop p).buffer.isSome = true ∧
    (shrink_after_pop p).capacity =
      (if p.elem_count ≤ p.capacity / 4 then
        (if min (p.capacity / 2) p.max_cap ≤ p.elem_count ∨
            min (p.capacity / 2) p.max_cap < p.min_cap
         then p.capacity
         else min (p.capacity / 2) p.max_cap)
       else p.capacity) := by
  obtain ⟨hs1, hs2, hs3, hs4, hs5, hs6, hs7⟩ :=
    resize_buffer_frame p (p.capacity / 2)
  have hcap := resize_buffer_capacity p (p.capacity / 2) hb
  by_cases hq : p.elem_count ≤ p.capacity / 4
  · simp only [shrink_after_pop, if_pos hq]
    simp [hs1, hs2, hs3, hs4, hs5, hs6, hs7.trans hb, hcap]
  · simp only [shrink_after_pop, if_neg hq]
    simp [hb]

/-- Shape of a pop transaction: return value `min(count, elem_count)`, and
the final state is the shrink policy applied to the state with the new
element count and some new `begin` cursor. -/
lemma pop_without_locking_shape (p : Pipe) (count : Nat) (buf : List Nat)
    (hbuf : p.buffer = some buf) :
    ∃ out b,
      pop_without_locking p count =
        (min count p.elem_count, out,
         shrink_after_pop
           { p with elem_count := p.elem_count - min count p.elem_count,
                    begin := b }) := by
  simp only [pop_without_locking, hbuf]
  exact ⟨_, _, rfl⟩

/-- Effect of a pop transaction on every field except the buffer contents
and cursors, with the exact resulting capacity. -/
lemma pop_without_locking_spec (p : Pipe) (count : Nat) (hb : p.buffer.isSome) :
    (pop_without_locking p count).1 = min count p.elem_count ∧
    (pop_without_locking p count).2.2.elem_size = p.elem_size ∧
    (pop_without_locking p count).2.2.min_cap = p.min_cap ∧
    (pop_without_locking p count).2.2.max_cap = p.max_cap ∧
    (pop_without_locking p count).2.2.producer_refcount
      = p.producer_refcount ∧
    (pop_without_locking p count).2.2.consumer_refcount
      = p.consumer_refcount ∧
    (pop_without_locking p count).2.2.elem_count
      = p.elem_count - min count p.elem_count ∧
    (pop_without_locking p count).2.2.buffer.isSome = true ∧
    (pop_without_locking p count).2.2.capacity =
      (if p.elem_count - min count p.elem_count ≤ p.capacity / 4 then
        (if min (p.capacity / 2) p.max_cap
              ≤ p.elem_count - min count p.elem_count ∨
            min (p.capacity / 2) p.max_cap < p.min_cap
         then p.capacity
         else min (p.capacity / 2) p.max_cap)
       else p.capacity) := by
  obtain ⟨buf, hbuf⟩ := Option.isSome_iff_exists.mp hb
  obtain ⟨out, b, heq⟩ := pop_without_locking_shape p count buf hbuf
  rw [heq]
  obtain ⟨g1, g2, g3, g4, g5, g6, g7, g8⟩ :=
    shrink_after_pop_spec
      { p with elem_count := p.elem_count - min count p.elem_count,
               begin := b }
      (by simp [hbuf])
  exact ⟨rfl, g1, g2, g3, g4, g5, g6, g7, g8⟩

/-! ## Preservation of the capacity invariants -/

/-- A single push transaction preserves `Caps` provided the transferred count
fits under `max_cap` (which `pipe_push`'s chunking guarantees). -/
lemma Caps_push_chunk (p : Pipe) (elems : List Nat) (k : Nat)
    (hc : Caps p) (hk : p.elem_count + k ≤ p.max_cap) :
    Caps (push_without_locking p elems k) ∧
    (push_without_locking p elems k).elem_size = p.elem_size ∧
    (push_without_locking p elems k).min_cap = p.min_cap ∧
    (push_without_locking p elems k).max_cap = p.max_cap ∧
    (push_without_locking p elems k).producer_refcount
      = p.producer_refcount ∧
    (push_without_locking p elems k).consumer_refcount
      = p.consumer_refcount ∧
    (push_without_locking p elems k).elem_count = p.elem_count + k := by
  obtain ⟨hbi, h1, h2, h3, h4⟩ := hc
  obtain ⟨f1, f2, f3, f4, f5, f6, f7, f8⟩ :=
    push_without_locking_spec p elems k hbi
  have hnp := next_pow2_ge (p.elem_count + k)
  have hcap : ((push_without_locking p elems k).capacity = p.capacity ∧
        p.elem_count + k ≤ p.capacity) ∨
      ((push_without_locking p elems k).capacity
          = min (next_pow2 (p.elem_count + k)) p.max_cap ∧
        p.elem_count + k
          ≤ (push_without_locking p elems k).capacity ∧
        p.capacity < p.elem_count + k) := by
    rw [f8]
    by_cases hg : p.elem_count + k > p.capacity
    · rw [if_pos hg, resize_buffer_capacity p _ hbi]
      have hno : ¬ (min (next_pow2 (p.elem_count + k)) p.max_cap
            ≤ p.elem_count ∨
          min (next_pow2 (p.elem_count + k)) p.max_cap < p.min_cap) := by
        omega
      rw [if_neg hno]
      exact Or.inr ⟨rfl, by omega, hg⟩
    · rw [if_neg hg]
      exact Or.inl ⟨rfl, by omega⟩
  refine ⟨⟨f7, ?_, ?_, ?_, ?_⟩, f1, f2, f3, f4, f5, f6⟩
  · rw [f2]
    rcases hcap with ⟨hcp, _⟩ | ⟨hcp, _, _⟩ <;> rw [hcp] <;> omega
  · rw [f3]
    rcases hcap with ⟨hcp, _⟩ | ⟨hcp, _, _⟩ <;> rw [hcp] <;> omega
  · rw [f6]
    rcases hcap with ⟨hcp, hfit⟩ | ⟨_, hfit, _⟩ <;> omega
  · rw [f2]; exact h4

/-- A single push transaction preserves the power-of-two state, provided the
resulting element count stays within `next_pow2`'s exact range. -/
lemma Pow2_push_chunk (p : Pipe) (elems : List Nat) (k : Nat)
    (hc : Caps p) (hp : Pow2State p) (_hk : p.elem_count + k ≤ p.max_cap)
    (hsz : p.elem_count + k ≤ 2 ^ 63) :
    Pow2State (push_without_locking p elems k) := by
  obtain ⟨hbi, h1, h2, h3, h4⟩ := hc
  obtain ⟨hpc, hpm⟩ := hp
  obtain ⟨f1, f2, f3, f4, f5, f6, f7, f8⟩ :=
    push_without_locking_spec p elems k hbi
  constructor
  · rw [f8]
    by_cases hg : p.elem_count + k > p.capacity
    · rw [if_pos hg, resize_buffer_capacity p _ hbi]
      split
      · exact hpc
      · have hnp2 : IsPow2 (next_pow2 (p.elem_count + k)) :=
          next_pow2_pow2 _ hsz
        rcases hpm with hm | hm
        · rcases Nat.le_total (next_pow2 (p.elem_count + k)) p.max_cap
            with hle | hle
          · rw [Nat.min_eq_left hle]; exact hnp2
          · rw [Nat.min_eq_right hle]; exact hm
        · have hle : next_pow2 (p.elem_count + k) ≤ p.max_cap := by
            have := next_pow2_le_pow2 (p.elem_count + k) 63 hsz
            rw [hm]
            unfold SIZE_MAX
            omega
          rw [Nat.min_eq_left hle]; exact hnp2
    · rw [if_neg hg]; exact hpc
  · rw [f3]; exact hpm

/-- The chunk loop preserves `Caps`, never touches `min_cap`, `max_cap`,
`elem_size` or the refcounts, and grows the element count by at most
`count`; under the size discipline it also preserves the power-of-two
state. -/
lemma pipe_pushAux_caps (fuel : Nat) :
    ∀ (p : Pipe) (elems : List Nat) (count : Nat) (q : Pipe),
      Caps p → (pipe_pushAux fuel p elems count).1 = some q →
      Caps q ∧ q.elem_size = p.elem_size ∧ q.min_cap = p.min_cap ∧
      q.max_cap = p.max_cap ∧ q.producer_refcount = p.producer_refcount ∧
      q.consumer_refcount = p.consumer_refcount ∧
      p.elem_count ≤ q.elem_count ∧ q.elem_count ≤ p.elem_count + count ∧
      (Pow2State p → p.elem_count + count ≤ 2 ^ 63 → Pow2State q) := by
  induction fuel with
  | zero =>
    intro p elems count q hc h
    by_cases h0 : count = 0
    · simp only [pipe_pushAux, h0, if_pos, Option.some.injEq] at h
      subst h
      exact ⟨hc, rfl, rfl, rfl, rfl, rfl, le_refl _, by omega,
        fun hp _ => hp⟩
    · simp [pipe_pushAux, h0] at h
  | succ fuel ih =>
    intro p elems count q hc h
    rw [pipe_pushAux] at h
    by_cases h0 : count = 0
    · rw [if_pos h0] at h
      simp only [Option.some.injEq] at h
      subst h
      exact ⟨hc, rfl, rfl, rfl, rfl, rfl, le_refl _, by omega,
        fun hp _ => hp⟩
    rw [if_neg h0] at h
    by_cases h1 : p.elem_count = p.max_cap ∧ 0 < p.consumer_refcount
    · rw [if_pos h1] at h
      simp at h
    rw [if_neg h1] at h
    by_cases h2 : p.consumer_refcount = 0
    · rw [if_pos h2] at h
      simp only [Option.some.injEq] at h
      subst h
      exact ⟨hc, rfl, rfl, rfl, rfl, rfl, le_refl _, by omega,
        fun hp _ => hp⟩
    rw [if_neg h2] at h
    dsimp only [] at h
    set k := min count (p.max_cap - p.elem_count) with hkdef
    by_cases h3 : k = 0
    · rw [if_pos h3] at h
      simp at h
    rw [if_neg h3] at h
    dsimp only [] at h
    obtain ⟨hbi, c1, c2, c3, c4⟩ := hc
    have hk : p.elem_count + k ≤ p.max_cap := by omega
    obtain ⟨hcp2, e1, e2, e3, e4, e5, e6⟩ :=
      Caps_push_chunk p (elems.take (k * p.elem_size)) k ⟨hbi, c1, c2, c3, c4⟩ hk
    obtain ⟨hq, q1, q2, q3, q4, q5, q6, q7, q8⟩ := ih _ _ _ q hcp2 h
    rw [e6] at q6 q7
    refine ⟨hq, q1.trans e1, q2.trans e2, q3.trans e3, q4.trans e4,
      q5.trans e5, by omega, by omega, ?_⟩
    intro hp hsz
    refine q8 (Pow2_push_chunk p _ k ⟨hbi, c1, c2, c3, c4⟩ hp hk (by omega)) ?_
    rw [e6]
    omega

lemma IsPow2_half (c : Nat) (hp : IsPow2 c) (h2 : 1 ≤ c / 2) :
    IsPow2 (c / 2) := by
  obtain ⟨j, rfl⟩ := hp
  cases j with
  | zero => simp at h2
  | succ j =>
    refine ⟨j, ?_⟩
    rw [pow_succ]
    omega

/-- `pipe_pop` preserves `Caps` and the frame fields whenever it returns,
never increases the element count, and preserves the power-of-two state. -/
lemma pipe_pop_caps (p : Pipe) (count0 : Nat) (r : Nat) (out : List Nat)
    (q : Pipe) (hc : Caps p) (h : pipe_pop p count0 = some (r, out, q)) :
    Caps q ∧ q.elem_size = p.elem_size ∧ q.min_cap = p.min_cap ∧
    q.max_cap = p.max_cap ∧ q.producer_refcount = p.producer_refcount ∧
    q.consumer_refcount = p.consumer_refcount ∧
    q.elem_count ≤ p.elem_count ∧
    (Pow2State p → Pow2State q) := by
  obtain ⟨hbi, c1, c2, c3, c4⟩ := hc
  unfold pipe_pop at h
  dsimp only [] at h
  set cl := if count0 > p.max_cap then p.max_cap else count0 with hcl
  split at h
  · exact absurd h (by simp)
  split at h
  · rw [Option.some.injEq] at h
    have hq : (pop_without_locking p cl).2.2 = q := by rw [h]
    obtain ⟨g0, g1, g2, g3, g4, g5, g6, g7, g8⟩ :=
      pop_without_locking_spec p cl hbi
    subst hq
    refine ⟨⟨g7, ?_, ?_, ?_, ?_⟩, g1, g2, g3, g4, g5, by omega, ?_⟩
    · rw [g2, g8]
      split
      · split <;> omega
      · omega
    · rw [g3, g8]
      split
      · split <;> omega
      · omega
    · rw [g6, g8]
      split
      · split <;> omega
      · omega
    · rw [g2]; exact c4
    · intro hp
      obtain ⟨hpc, hpm⟩ := hp
      refine ⟨?_, by rw [g3]; exact hpm⟩
      rw [g8]
      split
      · split
        · exact hpc
        · rename_i hsh hacc
          have hmin : min (p.capacity / 2) p.max_cap = p.capacity / 2 :=
            Nat.min_eq_left (by omega)
          rw [hmin]
          rw [hmin] at hacc
          exact IsPow2_half p.capacity hpc (by omega)
      · exact hpc
  · simp only [Option.some.injEq, Prod.mk.injEq] at h
    obtain ⟨hr, hout, hq⟩ := h
    subst hq
    exact ⟨⟨hbi, c1, c2, c3, c4⟩, rfl, rfl, rfl, rfl, rfl, le_refl _,
      fun hp => hp⟩

/-- `pipe_reserve` preserves `Caps` (it may change `min_cap` and set the
capacity to its argument, but never breaks the ordering of the bounds) and
touches neither the counts nor the frame fields. -/
lemma pipe_reserve_caps (p : Pipe) (count0 : Nat) (hc : Caps p) :
    Caps (pipe_reserve p count0) ∧
    (pipe_reserve p count0).elem_size = p.elem_size ∧
    (pipe_reserve p count0).max_cap = p.max_cap ∧
    (pipe_reserve p count0).producer_refcount = p.producer_refcount ∧
    (pipe_reserve p count0).consumer_refcount = p.consumer_refcount ∧
    (pipe_reserve p count0).elem_count = p.elem_count := by
  obtain ⟨hbi, c1, c2, c3, c4⟩ := hc
  unfold pipe_reserve
  dsimp only []
  set cl := if count0 = 0 then DEFAULT_MINCAP else count0 with hcl
  have hcl1 : 1 ≤ cl := by
    rw [hcl]
    split
    · norm_num [DEFAULT_MINCAP]
    · omega
  split
  · exact ⟨⟨hbi, c1, c2, c3, c4⟩, rfl, rfl, rfl, rfl, rfl⟩
  · rename_i hgt
    set p1 : Pipe := { p with min_cap := min cl p.max_cap } with hp1
    have r2 : p1.elem_count = p.elem_count := rfl
    have r3 : p1.capacity = p.capacity := rfl
    have r4 : p1.min_cap = min cl p.max_cap := rfl
    have r5 : p1.max_cap = p.max_cap := rfl
    have hb1 : p1.buffer.isSome := hbi
    obtain ⟨f1, f2, f3, f4, f5, f6, f7⟩ := resize_buffer_frame p1 cl
    have hcap := resize_buffer_capacity p1 cl hb1
    rw [r2, r4, r5, r3] at hcap
    refine ⟨⟨f7.trans hb1, ?_, ?_, ?_, ?_⟩, f1, f4, f5, f6, f2⟩
    · rw [f3, r4, hcap]
      split <;> omega
    · rw [f4, r5, hcap]
      split <;> omega
    · rw [f2, r2, hcap]
      split <;> omega
    · rw [f3, r4]
      omega

lemma noReserve_cons (op : Op) (ops : List Op)
    (h : noReserve (op :: ops)) :
    (∀ n, op ≠ Op.reserve n) ∧ noReserve ops := by
  cases op with
  | push elems count => exact ⟨fun n hn => Op.noConfusion hn, h⟩
  | pop count => exact ⟨fun n hn => Op.noConfusion hn, h⟩
  | reserve count => exact absurd h id

/-- One session step preserves `Caps` and the frame fields; without a
`reserve` and under the size discipline it also preserves the power-of-two
state. -/
lemma runOp_caps (p : Pipe) (op : Op) (q : Pipe) (out : List Nat)
    (hc : Caps p) (h : runOp p op = some (q, out)) :
    Caps q ∧ q.elem_size = p.elem_size ∧ q.max_cap = p.max_cap ∧
    q.producer_refcount = p.producer_refcount ∧
    q.consumer_refcount = p.consumer_refcount ∧
    (Pow2State p → pushOK p op → (∀ n, op ≠ Op.reserve n) → Pow2State q) := by
  cases op with
  | push elems count =>
    rw [runOp] at h
    cases hp' : pipe_push p elems count with
    | none => rw [hp'] at h; cases h
    | some q' =>
      rw [hp'] at h
      simp only [Option.map_some', Option.some.injEq, Prod.mk.injEq] at h
      obtain ⟨h1, h2⟩ := h
      obtain ⟨g0, g1, g2, g3, g4, g5, g6, g7, g8⟩ :=
        pipe_pushAux_caps count p elems count q' hc hp'
      rw [← h1]
      exact ⟨g0, g1, g3, g4, g5, fun hp hsz _ => g8 hp hsz⟩
  | pop count =>
    rw [runOp] at h
    cases hp' : pipe_pop p count with
    | none => rw [hp'] at h; cases h
    | some r0 =>
      obtain ⟨r, out1, q'⟩ := r0
      rw [hp'] at h
      simp only [Option.map_some', Option.some.injEq, Prod.mk.injEq] at h
      obtain ⟨h1, h2⟩ := h
      obtain ⟨g0, g1, g2, g3, g4, g5, g6, g7⟩ :=
        pipe_pop_caps p count r out1 q' hc hp'
      rw [← h1]
      exact ⟨g0, g1, g3, g4, g5, fun hp _ _ => g7 hp⟩
  | reserve count =>
    simp only [runOp, Option.some.injEq, Prod.mk.injEq] at h
    obtain ⟨hq, hout⟩ := h
    subst hq
    obtain ⟨g0, g1, g2, g3, g4, g5⟩ := pipe_reserve_caps p count hc
    exact ⟨g0, g1, g2, g3, g4, fun _ _ hno => absurd rfl (hno count)⟩

/-- A whole session preserves `Caps` and the frame fields; without `reserve`
operations and under the size discipline it preserves the power-of-two
state as well. -/
lemma runTrace_caps (ops : List Op) :
    ∀ (p q : Pipe) (out : List Nat), Caps p →
      runTrace p ops = some (q, out) →
      Caps q ∧ q.elem_size = p.elem_size ∧ q.max_cap = p.max_cap ∧
      q.producer_refcount = p.producer_refcount ∧
      q.consumer_refcount = p.consumer_refcount ∧
      (Pow2State p → TraceOK p ops → noReserve ops → Pow2State q) := by
  induction ops with
  | nil =>
    intro p q out hc h
    simp only [runTrace, Option.some.injEq, Prod.mk.injEq] at h
    obtain ⟨hq, hout⟩ := h
    subst hq
    exact ⟨hc, rfl, rfl, rfl, rfl, fun hp _ _ => hp⟩
  | cons op ops ih =>
    intro p q out hc h
    rw [runTrace] at h
    cases hop : runOp p op with
    | none => rw [hop] at h; cases h
    | some pr =>
      obtain ⟨p', out1⟩ := pr
      rw [hop] at h
      dsimp only [] at h
      cases hrt : runTrace p' ops with
      | none => rw [hrt] at h; cases h
      | some r0 =>
      obtain ⟨q2, out2⟩ := r0
      rw [hrt] at h
      simp only [Option.map_some', Option.some.injEq, Prod.mk.injEq] at h
      obtain ⟨h1, h2⟩ := h
      obtain ⟨hc1, a1, a2, a3, a4, a5⟩ := runOp_caps p op p' out1 hc hop
      obtain ⟨hc2, b1, b2, b3, b4, b5⟩ := ih p' q2 out2 hc1 hrt
      rw [← h1]
      refine ⟨hc2, b1.trans a1, b2.trans a2, b3.trans a3, b4.trans a4, ?_⟩
      intro hp htr hnr
      obtain ⟨hok, htr2⟩ : pushOK p op ∧ TraceOK p' ops := by
        rw [TraceOK, hop] at htr
        exact htr
      obtain ⟨hno, hnr2⟩ := noReserve_cons op ops hnr
      exact b5 (a5 hp hok hno) htr2 hnr2

/-- A freshly created queue satisfies `Caps`; with a representable limit it
is also in power-of-two state. -/
lemma pipe_new_caps (elem_size limit : Nat) :
    Caps (pipe_new elem_size limit) ∧
    (limit ≤ 2 ^ 63 → Pow2State (pipe_new elem_size limit)) := by
  have f1 : (pipe_new elem_size limit).capacity = DEFAULT_MINCAP := rfl
  have f2 : (pipe_new elem_size limit).min_cap = DEFAULT_MINCAP := rfl
  have f3 : (pipe_new elem_size limit).elem_count = 0 := rfl
  have f4 : (pipe_new elem_size limit).max_cap =
      (if limit ≠ 0 then next_pow2 (max limit DEFAULT_MINCAP)
       else SIZE_MAX) := rfl
  have hge : DEFAULT_MINCAP ≤ (pipe_new elem_size limit).max_cap := by
    rw [f4]
    split
    · have := next_pow2_ge (max limit DEFAULT_MINCAP)
      omega
    · norm_num [DEFAULT_MINCAP, SIZE_MAX]
  constructor
  · refine ⟨by simp [pipe_new], ?_, ?_, ?_, ?_⟩
    · rw [f1, f2]
    · rw [f1]; exact hge
    · rw [f3]; omega
    · rw [f2]; norm_num [DEFAULT_MINCAP]
  · intro hl
    refine ⟨⟨5, by rw [f1]; rfl⟩, ?_⟩
    rw [f4]
    split
    · left
      refine next_pow2_pow2 _ ?_
      have h32 : DEFAULT_MINCAP ≤ 2 ^ 63 := by norm_num [DEFAULT_MINCAP]
      omega
    · right; rfl

/-- A push of zero elements returns immediately with no transaction. -/
lemma pipe_pushAux_zero (fuel : Nat) (p : Pipe) (elems : List Nat) :
    pipe_pushAux fuel p elems 0 = (some p, 0) := by
  cases fuel <;> simp [pipe_pushAux]

/-- The structural bound on the chunk loop is irrelevant as long as it is at
least `count`: the loop consumes at least one element of `count` per
iteration. -/
lemma pipe_pushAux_fuel_irrel (fuel : Nat) :
    ∀ (fuel' : Nat) (p : Pipe) (elems : List Nat) (count : Nat),
      count ≤ fuel → count ≤ fuel' →
      pipe_pushAux fuel p elems count = pipe_pushAux fuel' p elems count := by
  induction fuel with
  | zero =>
    intro fuel' p elems count h h'
    have h0 : count = 0 := by omega
    subst h0
    rw [pipe_pushAux_zero, pipe_pushAux_zero]
  | succ fuel ih =>
    intro fuel' p elems count h h'
    by_cases h0 : count = 0
    · subst h0
      rw [pipe_pushAux_zero, pipe_pushAux_zero]
    cases fuel' with
    | zero => omega
    | succ f' =>
      rw [pipe_pushAux, pipe_pushAux]
      rw [if_neg h0, if_neg h0]
      by_cases h1 : p.elem_count = p.max_cap ∧ 0 < p.consumer_refcount
      · rw [if_pos h1, if_pos h1]
      rw [if_neg h1, if_neg h1]
      by_cases h2 : p.consumer_refcount = 0
      · rw [if_pos h2, if_pos h2]
      rw [if_neg h2, if_neg h2]
      dsimp only []
      by_cases h3 : min count (p.max_cap - p.elem_count) = 0
      · rw [if_pos h3, if_pos h3]
      rw [if_neg h3, if_neg h3]
      rw [ih f' _ _ _ (by omega) (by omega)]

/-! ## Draining a queue one element at a time (shrink hysteresis) -/

/-- Exact effect of popping one element from a non-empty unbounded queue. -/
lemma popOne_spec (p : Pipe) (m : Nat) (hb : p.buffer.isSome)
    (hm : p.elem_count = m + 1) (hmax : p.max_cap = SIZE_MAX) :
    (popOne p).elem_count = m ∧ (popOne p).buffer.isSome = true ∧
    (popOne p).min_cap = p.min_cap ∧ (popOne p).max_cap = p.max_cap ∧
    (popOne p).capacity =
      (if m ≤ p.capacity / 4 then
        (if min (p.capacity / 2) p.max_cap ≤ m ∨
            min (p.capacity / 2) p.max_cap < p.min_cap
         then p.capacity
         else min (p.capacity / 2) p.max_cap)
       else p.capacity) := by
  have hsize : (1 : Nat) ≤ SIZE_MAX := by norm_num [SIZE_MAX]
  have hcl : (if 1 > p.max_cap then p.max_cap else 1) = 1 := by
    rw [if_neg (by omega)]
  have hpop : pipe_pop p 1 = some (pop_without_locking p 1) := by
    unfold pipe_pop
    dsimp only []
    rw [hcl]
    rw [if_neg (by omega : ¬ (p.elem_count < 1 ∧ 0 < p.producer_refcount)),
        if_pos (by omega : 0 < p.elem_count)]
  have hone : min 1 p.elem_count = 1 := by omega
  have hsub : p.elem_count - min 1 p.elem_count = m := by omega
  obtain ⟨g0, g1, g2, g3, g4, g5, g6, g7, g8⟩ :=
    pop_without_locking_spec p 1 hb
  rw [hsub] at g6 g8
  unfold popOne
  rw [hpop]
  exact ⟨g6, g7, g2, g3, g8⟩

/-- Draining `m` elements one at a time from an unbounded queue whose
capacity keeps pace with its fill (`capacity ≤ 4·elem_count` unless already
at the floor) brings the capacity back to `DEFAULT_MINCAP`. -/
lemma drain_loop (m : Nat) :
    ∀ (p : Pipe) (k : Nat),
      p.buffer.isSome = true → p.elem_count = m →
      p.min_cap = DEFAULT_MINCAP → p.max_cap = SIZE_MAX →
      p.capacity = 2 ^ k → 5 ≤ k → k ≤ 63 →
      (k = 5 ∨ 2 ^ k ≤ 4 * m) →
      (popOne^[m] p).capacity = DEFAULT_MINCAP ∧
        (popOne^[m] p).elem_count = 0 := by
  induction m with
  | zero =>
    intro p k hb hm hmin hmax hcap h5 h63 hinv
    have hk5 : k = 5 := by
      rcases hinv with h | h
      · exact h
      · have := Nat.two_pow_pos k
        omega
    subst hk5
    simp only [Function.iterate_zero_apply]
    constructor
    · rw [hcap]; rfl
    · exact hm
  | succ m ih =>
    intro p k hb hm hmin hmax hcap h5 h63 hinv
    rw [Function.iterate_succ_apply]
    obtain ⟨e1, e2, e3, e4, e5⟩ := popOne_spec p m hb hm hmax
    rw [hcap, hmin, hmax] at e5
    have hpow1 : 2 ^ k = 2 * 2 ^ (k - 1) := by
      conv_lhs => rw [show k = (k - 1) + 1 by omega]
      rw [pow_add]
      ring
    have hpow2 : 2 ^ k = 4 * 2 ^ (k - 2) := by
      conv_lhs => rw [show k = (k - 2) + 2 by omega]
      rw [pow_add]
      ring
    have hhalf : 2 ^ k / 2 = 2 ^ (k - 1) := by omega
    have hquart : 2 ^ k / 4 = 2 ^ (k - 2) := by omega
    have hlt64 : 2 ^ (k - 1) ≤ 2 ^ 63 :=
      Nat.pow_le_pow_right (by omega) (by omega)
    have hminv : min (2 ^ (k - 1)) SIZE_MAX = 2 ^ (k - 1) := by
      have hs : SIZE_MAX = 2 ^ 64 - 1 := rfl
      have h63 : (2 : Nat) ^ 63 < 2 ^ 64 - 1 := by norm_num
      exact Nat.min_eq_left (by omega)
    rw [hhalf, hquart, hminv] at e5
    have h32 : (DEFAULT_MINCAP : Nat) = 2 ^ 5 := rfl
    by_cases hk5 : k = 5
    · subst hk5
      have h16 : (2 : Nat) ^ (5 - 1) < DEFAULT_MINCAP := by
        norm_num [DEFAULT_MINCAP]
      have hcap2 : (popOne p).capacity = 2 ^ 5 := by
        rw [e5]
        split
        · rw [if_pos (Or.inr h16)]
        · rfl
      exact ih (popOne p) 5 e2 e1 (e3.trans hmin) (e4.trans hmax) hcap2
        (by omega) (by omega) (Or.inl rfl)
    · have hk6 : 6 ≤ k := by omega
      have h2k6 : (64 : Nat) ≤ 2 ^ k := by
        calc (64 : Nat) = 2 ^ 6 := rfl
        _ ≤ 2 ^ k := Nat.pow_le_pow_right (by omega) hk6
      have hmono : 2 ^ (k - 2) < 2 ^ (k - 1) :=
        Nat.pow_lt_pow_right (by omega) (by omega)
      have hge32 : (32 : Nat) ≤ 2 ^ (k - 1) := by
        calc (32 : Nat) = 2 ^ 5 := rfl
        _ ≤ 2 ^ (k - 1) := Nat.pow_le_pow_right (by omega) (by omega)
      by_cases hsh : m ≤ 2 ^ (k - 2)
      · have hno : ¬ (2 ^ (k - 1) ≤ m ∨ 2 ^ (k - 1) < DEFAULT_MINCAP) := by
          simp only [DEFAULT_MINCAP]
          omega
        have hcap2 : (popOne p).capacity = 2 ^ (k - 1) := by
          rw [e5, if_pos hsh, if_neg hno]
        refine ih (popOne p) (k - 1) e2 e1 (e3.trans hmin) (e4.trans hmax)
          hcap2 (by omega) (by omega) ?_
        rcases hinv with h | h
        · omega
        · right
          omega
      · have hcap2 : (popOne p).capacity = 2 ^ k := by
          rw [e5, if_neg hsh]
        refine ih (popOne p) k e2 e1 (e3.trans hmin) (e4.trans hmax)
          hcap2 (by omega) (by omega) ?_
        right
        omega

/-- Pushing `1 ≤ N ≤ 2^62` elements into a fresh unbounded queue completes
in a single transaction, after growing the capacity to `next_pow2 N` when
`N` does not fit into the default capacity. -/
lemma pipe_push_fresh (esz N : Nat) (h1 : 1 ≤ N) (h2 : N ≤ 2 ^ 62) :
    ∃ p1,
      pipe_push (pipe_new esz 0) (List.replicate (N * esz) 0) N = some p1 ∧
      p1.buffer.isSome = true ∧ p1.elem_count = N ∧
      p1.min_cap = DEFAULT_MINCAP ∧ p1.max_cap = SIZE_MAX ∧
      p1.capacity =
        (if N ≤ DEFAULT_MINCAP then DEFAULT_MINCAP else next_pow2 N) := by
  set p0 := pipe_new esz 0 with hp0
  have hb0 : p0.buffer.isSome = true := by simp [hp0, pipe_new]
  have hec : p0.elem_count = 0 := rfl
  have hmx : p0.max_cap = SIZE_MAX := rfl
  have hmc : p0.min_cap = DEFAULT_MINCAP := rfl
  have hcp : p0.capacity = DEFAULT_MINCAP := rfl
  have hcr : p0.consumer_refcount = 1 := rfl
  have hsm : (2 : Nat) ^ 62 < SIZE_MAX := by norm_num [SIZE_MAX]
  obtain ⟨n, rfl⟩ : ∃ n, N = n + 1 := ⟨N - 1, by omega⟩
  have hmin : min (n + 1) (p0.max_cap - p0.elem_count) = n + 1 := by
    rw [hec, hmx]
    omega
  have hpush : pipe_push p0 (List.replicate ((n + 1) * esz) 0) (n + 1) =
      some (push_without_locking p0
        ((List.replicate ((n + 1) * esz) 0).take ((n + 1) * p0.elem_size))
        (n + 1)) := by
    unfold pipe_push
    rw [pipe_pushAux]
    rw [if_neg (by omega : ¬ (n + 1 = 0))]
    rw [if_neg (by rw [hec, hmx]; norm_num [SIZE_MAX])]
    rw [if_neg (by rw [hcr]; norm_num)]
    dsimp only []
    rw [hmin]
    rw [if_neg (by omega : ¬ (n + 1 = 0))]
    rw [Nat.sub_self, pipe_pushAux_zero]
  obtain ⟨f1, f2, f3, f4, f5, f6, f7, f8⟩ :=
    push_without_locking_spec p0
      ((List.replicate ((n + 1) * esz) 0).take ((n + 1) * p0.elem_size))
      (n + 1) hb0
  refine ⟨_, hpush, f7, by rw [f6, hec, Nat.zero_add], f2.trans hmc, f3.trans hmx, ?_⟩
  rw [f8, hec, hcp]
  simp only [Nat.zero_add]
  by_cases hgt : n + 1 ≤ DEFAULT_MINCAP
  · rw [if_pos hgt, if_neg (by omega : ¬ n + 1 > DEFAULT_MINCAP)]
  · rw [if_neg hgt, if_pos (by omega : n + 1 > DEFAULT_MINCAP)]
    rw [resize_buffer_capacity p0 _ hb0, hec, hmc, hmx]
    have hge := next_pow2_ge (n + 1)
    have hle : next_pow2 (n + 1) ≤ 2 ^ 62 :=
      next_pow2_le_pow2 _ 62 (by omega)
    have h32 : (DEFAULT_MINCAP : Nat) = 32 := rfl
    rw [if_neg (by omega)]
    omega

lemma not_isPow2_33 : ¬ IsPow2 33 := by
  rintro ⟨k, hk⟩
  rcases Nat.lt_or_ge k 6 with h | h
  · have h32 : (2 : Nat) ^ k ≤ 32 := by
      calc (2 : Nat) ^ k ≤ 2 ^ 5 := Nat.pow_le_pow_right (by omega) (by omega)
      _ = 32 := rfl
    omega
  · have h64 : (64 : Nat) ≤ 2 ^ k := by
      calc (64 : Nat) = 2 ^ 6 := rfl
      _ ≤ 2 ^ k := Nat.pow_le_pow_right (by omega) h
    omega

/-- Every chunk of `pipe_push` transfers at least one element, so the loop
performs at most `count` transactions. -/
lemma pipe_pushAux_chunks_le (fuel : Nat) :
    ∀ (p : Pipe) (elems : List Nat) (count : Nat),
      (pipe_pushAux fuel p elems count).2 ≤ count := by
  induction fuel with
  | zero =>
    intro p elems count
    rw [pipe_pushAux]
    split <;> simp
  | succ fuel ih =>
    intro p elems count
    rw [pipe_pushAux]
    by_cases h0 : count = 0
    · simp [h0]
    rw [if_neg h0]
    split
    · simp
    split
    · simp
    dsimp only []
    by_cases h3 : min count (p.max_cap - p.elem_count) = 0
    · rw [if_pos h3]
      simp
    rw [if_neg h3]
    have H := ih
      (push_without_locking p
        (elems.take (min count (p.max_cap - p.elem_count) * p.elem_size))
        (min count (p.max_cap - p.elem_count)))
      (elems.drop (min count (p.max_cap - p.elem_count) * p.elem_size))
      (count - min count (p.max_cap - p.elem_count))
    dsimp only []
    omega

/-! ## The claims -/

/-- C1 (code_bug): order preservation fails on the code.  In a sequential
single-producer single-consumer session on a fresh unbounded byte queue,
pushing 32 bytes of value 1 fills the buffer exactly (begin = end), a
state the code's own `check_invariants` already rejects; the next push
grows the buffer, and `copy_pipe_into_new_buf` copies `end - begin = 0`
bytes, losing all 32 buffered bytes.  The subsequent pop returns the byte
99 followed by 32 bytes of freshly allocated garbage (zeros in the model)
instead of the pushed sequence `[1, …, 1, 99]`. -/
theorem C1_order_preservation_code_bug :
    (runTrace (pipe_new 1 0) [Op.push (List.replicate 32 1) 32]).map
      (fun r => check_invariants r.1) = some false ∧
    (runTrace (pipe_new 1 0)
        [Op.push (List.replicate 32 1) 32, Op.push [99] 1, Op.pop 33]).map
      (fun r => r.2) = some (99 :: List.replicate 32 0) ∧
    pushedBytes 1
        [Op.push (List.replicate 32 1) 32, Op.push [99] 1, Op.pop 33]
      = List.replicate 32 1 ++ [99] ∧
    99 :: List.replicate 32 0 ≠ List.replicate 32 1 ++ [99] := by
  exact ⟨by decide, by decide, by decide, by decide⟩

/-- C2 counterexample: `pipe_new(1, 8)` has `max_cap = next_pow2(max(8,
32)) = 32`, not 8, so a push of 9 elements is accepted whole and the
buffered element count reaches 9 > 8, refuting "elem_count never exceeds
limit" for limit = 8. -/
theorem C2_counterexample :
    (pipe_push (pipe_new 1 8) (List.replicate 9 7) 9).map Pipe.elem_count
      = some 9 ∧ ¬ (9 : Nat) ≤ 8 := by
  exact ⟨by decide, by decide⟩

/-- C2 (amended): for every queue created by `new(elem_size, limit)` with
`limit > 0`, the element count never exceeds `max_cap =
next_pow2(max(limit, DEFAULT_MINCAP))` at any quiescent point of a
sequential session — in particular the bound for `limit = 8` is 32, not
8. -/
theorem C2_amended :
    (∀ (esz limit : Nat) (ops : List Op) (p : Pipe) (out : List Nat),
      0 < limit →
      runTrace (pipe_new esz limit) ops = some (p, out) →
      p.elem_count ≤ next_pow2 (max limit DEFAULT_MINCAP)) ∧
    (pipe_new 1 8).max_cap = 32 := by
  constructor
  · intro esz limit ops p out hl htr
    obtain ⟨hc0, _⟩ := pipe_new_caps esz limit
    obtain ⟨hc, _, hm, _, _, _⟩ := runTrace_caps ops (pipe_new esz limit)
      p out hc0 htr
    have hmax0 : (pipe_new esz limit).max_cap
        = next_pow2 (max limit DEFAULT_MINCAP) := by
      unfold pipe_new
      dsimp only []
      rw [if_pos (by omega : limit ≠ 0)]
    obtain ⟨_, _, h2, h3, _⟩ := hc
    omega
  · decide

/-- Witness for C2 (amended) at `elem_size = 1`, `limit = 8` and the
session consisting of one `pop 0`. -/
theorem C2_amended_witness :
    0 < 8 ∧ runTrace (pipe_new 1 8) [Op.pop 0] = some (pipe_new 1 8, []) ∧
    (pipe_new 1 8).elem_count ≤ next_pow2 (max 8 DEFAULT_MINCAP) :=
  ⟨by decide, by decide,
   C2_amended.1 1 8 [Op.pop 0] (pipe_new 1 8) [] (by decide) (by decide)⟩

/-- C3 counterexample: on a queue holding one element with its producer
alive, `pop(dst, 0)` returns 0, refuting "a zero return happens only when
no producers remain and the queue holds no more data" (the tuple is the
pop's return value, the producer refcount and the element count). -/
theorem C3_counterexample :
    (pipe_push (pipe_new 1 0) [5] 1).bind
        (fun p1 => (pipe_pop p1 0).map
          (fun r => (r.1, r.2.2.producer_refcount, r.2.2.elem_count)))
      = some (0, 1, 1) ∧ ¬ ((1 : Nat) = 0 ∧ (1 : Nat) = 0) := by
  exact ⟨by decide, by decide⟩

/-- C3 (amended): for every pop with requested `count ≥ 1` on a queue with
live storage, whenever `pipe_pop` returns it returns exactly
`min(count clamped to max_cap, elem_count)`, and it returns 0 exactly when
no producers remain and the queue is empty. -/
theorem C3_amended :
    ∀ (p : Pipe) (count r : Nat) (out : List Nat) (q : Pipe),
      1 ≤ count → 1 ≤ p.max_cap → p.buffer.isSome →
      pipe_pop p count = some (r, out, q) →
      r = min (min count p.max_cap) p.elem_count ∧
      (r = 0 ↔ p.producer_refcount = 0 ∧ p.elem_count = 0) := by
  intro p count r out q hcnt hmax hb h
  unfold pipe_pop at h
  dsimp only [] at h
  set cl := if count > p.max_cap then p.max_cap else count with hcl
  have hcl_eq : cl = min count p.max_cap := by
    rw [hcl]
    split <;> omega
  have hcl1 : 1 ≤ cl := by omega
  split at h
  · cases h
  · rename_i hblk
    split at h
    · rename_i hpos
      rw [Option.some.injEq] at h
      have hr : (pop_without_locking p cl).1 = r := by rw [h]
      obtain ⟨g0, _⟩ := pop_without_locking_spec p cl hb
      rw [g0] at hr
      constructor
      · omega
      · constructor
        · intro h0
          omega
        · rintro ⟨_, h0⟩
          omega
    · rename_i hzero
      rw [Option.some.injEq, Prod.mk.injEq] at h
      obtain ⟨hr, -⟩ := h
      have hec : p.elem_count = 0 := by omega
      have hprod : p.producer_refcount = 0 := by
        by_contra hne
        exact hblk ⟨by omega, by omega⟩
      exact ⟨by omega, by omega⟩

/-- Witness for C3 (amended): pop 3 elements from a fresh unbounded queue
holding 5 bytes of value 7. -/
theorem C3_amended_witness :
    1 ≤ 3 ∧
    1 ≤ ((pipe_push (pipe_new 1 0) (List.replicate 5 7) 5).getD
          (pipe_new 1 0)).max_cap ∧
    ((pipe_push (pipe_new 1 0) (List.replicate 5 7) 5).getD
        (pipe_new 1 0)).buffer.isSome ∧
    pipe_pop ((pipe_push (pipe_new 1 0) (List.replicate 5 7) 5).getD
        (pipe_new 1 0)) 3
      = some (3, [7, 7, 7],
        ((pipe_pop ((pipe_push (pipe_new 1 0) (List.replicate 5 7) 5).getD
              (pipe_new 1 0)) 3).getD (0, [], pipe_new 1 0)).2.2) ∧
    (3 = min (min 3 ((pipe_push (pipe_new 1 0) (List.replicate 5 7) 5).getD
          (pipe_new 1 0)).max_cap)
        ((pipe_push (pipe_new 1 0) (List.replicate 5 7) 5).getD
          (pipe_new 1 0)).elem_count ∧
      (3 = 0 ↔
        ((pipe_push (pipe_new 1 0) (List.replicate 5 7) 5).getD
            (pipe_new 1 0)).producer_refcount = 0 ∧
        ((pipe_push (pipe_new 1 0) (List.replicate 5 7) 5).getD
            (pipe_new 1 0)).elem_count = 0)) :=
  ⟨by decide, by decide, by decide, by decide,
   C3_amended
     ((pipe_push (pipe_new 1 0) (List.replicate 5 7) 5).getD (pipe_new 1 0))
     3 3 [7, 7, 7]
     ((pipe_pop ((pipe_push (pipe_new 1 0) (List.replicate 5 7) 5).getD
           (pipe_new 1 0)) 3).getD (0, [], pipe_new 1 0)).2.2
     (by decide) (by decide) (by decide) (by decide)⟩

/-- C4 (confirmed): a push on a queue with no consumers returns at once
(`some`, never the blocking `none`) with the entire state unchanged. -/
theorem C4_push_no_consumers :
    ∀ (p : Pipe) (elems : List Nat) (count : Nat),
      p.consumer_refcount = 0 → pipe_push p elems count = some p := by
  intro p elems count h0
  unfold pipe_push
  cases count with
  | zero => rw [pipe_pushAux_zero]
  | succ n =>
    rw [pipe_pushAux]
    rw [if_neg (by omega : ¬ n + 1 = 0)]
    rw [if_neg (by rw [h0]; simp)]
    rw [if_pos h0]

/-- Witness for C4: push into a queue whose only consumer was dropped. -/
theorem C4_push_no_consumers_witness :
    (pipe_consumer_free (pipe_new 1 0)).consumer_refcount = 0 ∧
    pipe_push (pipe_consumer_free (pipe_new 1 0)) [1, 2] 2
      = some (pipe_consumer_free (pipe_new 1 0)) :=
  ⟨by decide, C4_push_no_consumers _ [1, 2] 2 (by decide)⟩

/-- C5 counterexample: `pipe_reserve` passes its raw argument to
`resize_buffer` without rounding, so `reserve(33)` on a fresh unbounded
queue leaves `capacity = 33`, which is not a power of two. -/
theorem C5_counterexample :
    (pipe_reserve (pipe_new 1 0) 33).capacity = 33 ∧ ¬ IsPow2 33 :=
  ⟨by decide, not_isPow2_33⟩

/-- C5 (amended): at every quiescent point of a sequential session,
`min_cap ≤ capacity ≤ max_cap` and `elem_count ≤ capacity`; the capacity is
moreover a power of two provided no `reserve` was performed (a reserve may
install its exact, non-power-of-two argument as the capacity), the limit is
representable and pushes respect the size discipline. -/
theorem C5_amended :
    ∀ (esz limit : Nat) (ops : List Op) (p : Pipe) (out : List Nat),
      runTrace (pipe_new esz limit) ops = some (p, out) →
      p.min_cap ≤ p.capacity ∧ p.capacity ≤ p.max_cap ∧
      p.elem_count ≤ p.capacity ∧
      (limit ≤ 2 ^ 63 → TraceOK (pipe_new esz limit) ops →
        noReserve ops → IsPow2 p.capacity) := by
  intro esz limit ops p out htr
  obtain ⟨hc0, hp0⟩ := pipe_new_caps esz limit
  obtain ⟨hc, _, _, _, _, hpw⟩ :=
    runTrace_caps ops (pipe_new esz limit) p out hc0 htr
  obtain ⟨_, a, b, c, _⟩ := hc
  exact ⟨a, b, c, fun hl hto hnr => (hpw (hp0 hl) hto hnr).1⟩

/-- Witness for C5 (amended) at `elem_size = 1`, `limit = 5` and the
session consisting of one `pop 0`. -/
theorem C5_amended_witness :
    runTrace (pipe_new 1 5) [Op.pop 0] = some (pipe_new 1 5, []) ∧
    (5 : Nat) ≤ 2 ^ 63 ∧ TraceOK (pipe_new 1 5) [Op.pop 0] ∧
    noReserve [Op.pop 0] ∧
    ((pipe_new 1 5).min_cap ≤ (pipe_new 1 5).capacity ∧
      IsPow2 (pipe_new 1 5).capacity) :=
  ⟨by decide, by decide, by decide, by decide,
   (C5_amended 1 5 [Op.pop 0] (pipe_new 1 5) [] (by decide)).1,
   (C5_amended 1 5 [Op.pop 0] (pipe_new 1 5) [] (by decide)).2.2.2
     (by decide) (by decide) (by decide)⟩

/-- C6 (code_bug): the exactly-full buffer is reachable — pushing 32
elements into a `limit = 8` queue (whose real bound is 32) yields a state
with `begin = end = 0` yet `elem_count = 32`, so "begin = end iff empty"
fails, and the code's own `check_invariants` assertions reject this very
state (its size equation `elem_size·elem_count = end − begin` reads
32 = 0). -/
theorem C6_cursor_invariant_code_bug :
    (pipe_push (pipe_new 1 8) (List.replicate 32 5) 32).map
      (fun p => (p.begin, p.end_, p.elem_count, check_invariants p))
      = some (0, 0, 32, false) := by
  decide

/-- C7 counterexample: push 65 bytes into a fresh unbounded queue (capacity
grows to 128), then pop all 65 in a single call: the shrink policy halves
at most once per pop, leaving capacity 64, not `min_cap = 32`. -/
theorem C7_counterexample :
    (pipe_push (pipe_new 1 0) (List.replicate 65 3) 65).bind
      (fun p1 => (pipe_pop p1 65).map (fun r => r.2.2.capacity))
      = some 64 ∧ (pipe_new 1 0).min_cap = 32 ∧ (64 : Nat) ≠ 32 := by
  exact ⟨by decide, by decide, by decide⟩

/-- C7 (amended): after pushing `N` elements into a fresh unbounded queue
and then popping them one element at a time until the queue is empty, the
capacity returns to `min_cap` (popping them all in one call does not — see
the counterexample — because the shrink policy halves at most once per
pop). -/
theorem C7_amended :
    ∀ (esz N : Nat), 1 ≤ N → N ≤ 2 ^ 62 →
      (pipe_push (pipe_new esz 0) (List.replicate (N * esz) 0) N).map
        (fun p1 => (popOne^[N] p1).capacity)
        = some (pipe_new esz 0).min_cap := by
  intro esz N h1 h2
  obtain ⟨p1, hpush, hb, hec, hmc, hmx, hcp⟩ := pipe_push_fresh esz N h1 h2
  rw [hpush, Option.map_some']
  show some (popOne^[N] p1).capacity = some DEFAULT_MINCAP
  rw [Option.some.injEq]
  have hlt63 : N < 2 ^ 63 := by
    have : (2 : Nat) ^ 62 < 2 ^ 63 := by norm_num
    omega
  by_cases hN : N ≤ DEFAULT_MINCAP
  · refine (drain_loop N p1 5 hb hec hmc hmx ?_ (by omega) (by omega)
      (Or.inl rfl)).1
    rw [hcp, if_pos hN]
    rfl
  · have hcap : p1.capacity = 2 ^ (N - 1).size := by
      rw [hcp, if_neg hN]
      exact next_pow2_eq N hlt63
    have hge : N ≤ 2 ^ (N - 1).size := by
      have := next_pow2_ge N
      rw [next_pow2_eq N hlt63] at this
      exact this
    have h33 : 33 ≤ N := by
      have h32 : (DEFAULT_MINCAP : Nat) = 32 := rfl
      omega
    have hk5 : 5 ≤ (N - 1).size := by
      by_contra hlt
      push_neg at hlt
      have : (2 : Nat) ^ (N - 1).size ≤ 2 ^ 4 :=
        Nat.pow_le_pow_right (by omega) (by omega)
      have h16 : (2 : Nat) ^ 4 = 16 := rfl
      omega
    have hk63 : (N - 1).size ≤ 63 := by
      have hle : next_pow2 N ≤ 2 ^ 62 := next_pow2_le_pow2 N 62 h2
      rw [next_pow2_eq N hlt63] at hle
      have : (N - 1).size ≤ 62 :=
        (Nat.pow_le_pow_iff_right (by omega)).mp hle
      omega
    have hinv : 2 ^ (N - 1).size ≤ 4 * N := by
      have := next_pow2_le_two_mul N h1
      rw [next_pow2_eq N hlt63] at this
      omega
    exact (drain_loop N p1 ((N - 1).size) hb hec hmc hmx hcap hk5 hk63
      (Or.inr hinv)).1

/-- Witness for C7 (amended) at `elem_size = 1`, `N = 3`. -/
theorem C7_amended_witness :
    (1 : Nat) ≤ 3 ∧ (3 : Nat) ≤ 2 ^ 62 ∧
    (pipe_push (pipe_new 1 0) (List.replicate (3 * 1) 0) 3).map
      (fun p1 => (popOne^[3] p1).capacity)
      = some (pipe_new 1 0).min_cap :=
  ⟨by decide, by decide, C7_amended 1 3 (by decide) (by decide)⟩

/-- C8 (code_bug): `pipe_reserve(p, 5)` on a fresh queue sets
`min_cap = min(5, max_cap) = 5`, below the built-in floor
`DEFAULT_MINCAP = 32`; the resulting state fails the code's own
`check_invariants` assertion `min_cap >= DEFAULT_MINCAP` (which a debug
build executes when the reserve unlocks the mutex), so the code contradicts
its own assertions and the claimed floor invariant. -/
theorem C8_reserve_floor_code_bug :
    check_invariants (pipe_new 1 0) = true ∧
    (pipe_reserve (pipe_new 1 0) 5).min_cap = 5 ∧
    (pipe_reserve (pipe_new 1 0) 5).min_cap < DEFAULT_MINCAP ∧
    check_invariants (pipe_reserve (pipe_new 1 0) 5) = false := by
  exact ⟨by decide, by decide, by decide, by decide⟩

/-- C9 (confirmed): a push of `count` elements performs at most `count`
transfer transactions — each loop iteration either moves at least one
element or exits — so the chunk loop always terminates (the Lean model is
total, and its structural fuel `count` is never exhausted, cf.
`pipe_pushAux_fuel_irrel`). -/
theorem C9_chunked_push_terminates :
    ∀ (p : Pipe) (elems : List Nat) (count : Nat),
      pipe_push_chunks p elems count ≤ count :=
  fun p elems count => pipe_pushAux_chunks_le count p elems count

/-- C10 (confirmed): minting a handle is frame-preserving —
`pipe_producer_new` (resp. `pipe_consumer_new`) increments exactly the
producer (resp. consumer) refcount and leaves every other field of the
queue untouched, returning the same queue. -/
theorem C10_handle_new_frame (p : Pipe) :
    (pipe_producer_new p).producer_refcount = p.producer_refcount + 1 ∧
    (pipe_producer_new p).elem_size = p.elem_size ∧
    (pipe_producer_new p).elem_count = p.elem_count ∧
    (pipe_producer_new p).capacity = p.capacity ∧
    (pipe_producer_new p).min_cap = p.min_cap ∧
    (pipe_producer_new p).max_cap = p.max_cap ∧
    (pipe_producer_new p).buffer = p.buffer ∧
    (pipe_producer_new p).begin = p.begin ∧
    (pipe_producer_new p).end_ = p.end_ ∧
    (pipe_producer_new p).consumer_refcount = p.consumer_refcount ∧
    (pipe_consumer_new p).consumer_refcount = p.consumer_refcount + 1 ∧
    (pipe_consumer_new p).elem_size = p.elem_size ∧
    (pipe_consumer_new p).elem_count = p.elem_count ∧
    (pipe_consumer_new p).capacity = p.capacity ∧
    (pipe_consumer_new p).min_cap = p.min_cap ∧
    (pipe_consumer_new p).max_cap = p.max_cap ∧
    (pipe_consumer_new p).buffer = p.buffer ∧
    (pipe_consumer_new p).begin = p.begin ∧
    (pipe_consumer_new p).end_ = p.end_ ∧
    (pipe_consumer_new p).producer_refcount = p.producer_refcount :=
  ⟨rfl, rfl, rfl, rfl, rfl, rfl, rfl, rfl, rfl, rfl,
   rfl, rfl, rfl, rfl, rfl, rfl, rfl, rfl, rfl, rfl⟩
